import Mathlib

/-!
Verification of the mesh-fairing core (geometry.py, linalg.py, operators.py).

The first part is a shallow embedding of the discrete fairing engine over
exact rationals: `setup_fairing` and `fair` from geometry.py, with the
sparse solver abstracted as a function (linalg.py backends), Python-level
exceptions (IndexError / NameError) made explicit through `Except`, the
cooperative cancellation flag modelled as the sequence of values read at
the checkpoints of `fair`, and the progress-status sink modelled as a
message log.

A second part embeds the weight library of geometry.py over the reals,
and a third part models the control skeleton of the two worker threads in
operators.py.
-/

namespace MeshFairing

/-- A 3D coordinate vector (mathutils.Vector), over exact rationals. -/
structure Vec3 where
  x : ℚ
  y : ℚ
  z : ℚ
  deriving DecidableEq, Repr

/-- Componentwise vector addition. -/
def vadd (a b : Vec3) : Vec3 := ⟨a.x + b.x, a.y + b.y, a.z + b.z⟩

/-- Scalar multiplication. -/
def vsmul (m : ℚ) (a : Vec3) : Vec3 := ⟨m * a.x, m * a.y, m * a.z⟩

/-- The zero vector: a fresh row of `b` in `fair` (geometry.py line 242). -/
def vzero : Vec3 := ⟨0, 0, 0⟩

/--
The slice of the BMesh adjacency view used by `fair`/`setup_fairing`:
vertices are identified by numbers; each vertex has a position (`v.co`),
the `is_boundary` and `is_wire` flags, and a list of incident loops
(`v.link_loops`), each given as (loop id, id of `l.link_loop_next.vert`).
-/
structure Mesh where
  co : ℕ → Vec3
  is_boundary : ℕ → Bool
  is_wire : ℕ → Bool
  loops : ℕ → List (ℕ × ℕ)

/--
The sparse coefficient matrix `A : Dict[Tuple[int], float]`, modelled as
an association list keyed by (row, column) with Python-dict semantics:
lookup finds the unique entry, insertion of a fresh key appends.
-/
abbrev SparseA := List ((ℕ × ℕ) × ℚ)

/-- The keys stored in `A`. -/
def keysA (A : SparseA) : List (ℕ × ℕ) := A.map Prod.fst

/-- Dictionary lookup in `A` (`A[i, j]` when present). -/
def getA (A : SparseA) (k : ℕ × ℕ) : Option ℚ :=
  match A with
  | [] => none
  | (k', q) :: rest => if k' = k then some q else getA rest k

/--
The compound update of geometry.py lines 303-305:
`if (i, j) not in A: A[i, j] = 0` followed by `A[i, j] -= multiplier`.
-/
def subA (A : SparseA) (k : ℕ × ℕ) (m : ℚ) : SparseA :=
  match A with
  | [] => [(k, 0 - m)]
  | (k', q) :: rest => if k' = k then (k', q - m) :: rest else (k', q) :: subA rest k m

/-- The mutable state threaded through assembly: the matrix `A` and the
right-hand side `b` (a list of n rows, one 3-vector each). -/
abbrev SysState := SparseA × List Vec3

/--
geometry.py lines 268-324, `setup_fairing`: the recursive builder of one
row of the linear system.  `vcm` is membership/lookup in `vert_col_map`.
The base case either accumulates into `A[i, j]` (interior vertex) or adds
`multiplier * v.co` componentwise into `b[i]` (boundary/wire vertex); the
latter raises IndexError (modelled as `.error ()`) when `i` is out of
range of `b`, which Python propagates.  The recursive case folds over
`v.link_loops` in order and then recurses once on `v` itself with
multiplier `-1 * w_i * w_ij_sum * multiplier`; `w_ij_sum` is the sum of
the loop weights accumulated during the loop.
-/
def setup_fairing (M : Mesh) (vcm : ℕ → Option ℕ) (vw lw : ℕ → ℚ)
    (v i : ℕ) (multiplier : ℚ) (depth : ℕ) (st : SysState) : Except Unit SysState :=
  match depth, st with
  | 0, (A, b) =>
    match vcm v with
    | some j => .ok (subA A (i, j) multiplier, b)
    | none =>
      if h : i < b.length then
        .ok (A, b.set i (vadd (b.get ⟨i, h⟩) (vsmul multiplier (M.co v))))
      else
        .error ()
  | d + 1, st =>
    let w_i := vw v
    match (M.loops v).foldlM
        (fun st l => setup_fairing M vcm vw lw l.2 i (w_i * lw l.1 * multiplier) d st) st with
    | .error e => .error e
    | .ok st1 =>
      setup_fairing M vcm vw lw v i
        (-1 * w_i * (((M.loops v).map (fun l => lw l.1)).sum) * multiplier) d st1

/--
geometry.py line 239: the generator of interior (non-boundary, non-wire)
vertices of the affected list, in list order, duplicates kept.
-/
def interior_verts (M : Mesh) (verts : List ℕ) : List ℕ :=
  verts.filter (fun v => !(M.is_boundary v) && !(M.is_wire v))

/--
One step of a Python dict comprehension: inserting key `k` with value
`c`.  An existing key keeps its place but takes the new value; a fresh
key is appended (Python dicts iterate in first-insertion order).
-/
def dict_insert (d : List (ℕ × ℕ)) (k c : ℕ) : List (ℕ × ℕ) :=
  if d.any (fun p => p.1 == k) then
    d.map (fun p => if p.1 == k then (k, c) else p)
  else d ++ [(k, c)]

/--
geometry.py line 240: `{v: col for col, v in enumerate(interior_verts)}`.
-/
def vert_col_map (M : Mesh) (verts : List ℕ) : List (ℕ × ℕ) :=
  ((interior_verts M verts).enum).foldl (fun d cv => dict_insert d cv.2 cv.1) []

/-- Dictionary membership/lookup `vert_col_map[v]` used by `setup_fairing`. -/
def col_of (vcm : List (ℕ × ℕ)) (v : ℕ) : Option ℕ :=
  (vcm.find? (fun p => p.1 == v)).map Prod.snd

/-- The status message of geometry.py lines 246-247 (the float percentage
is modelled with exact integer arithmetic). -/
def setup_msg (col n : ℕ) : String :=
  "Setting up linear system (" ++ toString ((col + 1) * 100 / n) ++ "%)"

/--
One iteration of the setup loop of `fair` (geometry.py lines 243-248).
The loop state is the system (or a propagated exception) together with
the log of status messages; `e` is the pair (iteration index, (v, col)).
The cancel flag is read once per iteration; when it is set the iteration
does nothing.  Once an exception has propagated the loop is gone.
-/
def setup_step (M : Mesh) (vcm : List (ℕ × ℕ)) (vw lw : ℕ → ℚ) (order : ℕ)
    (cancel : ℕ → Bool) (hasStatus : Bool)
    (acc : Except Unit SysState × List String) (e : ℕ × (ℕ × ℕ)) :
    Except Unit SysState × List String :=
  match acc.1 with
  | .error u => (.error u, acc.2)
  | .ok st =>
    if cancel e.1 then acc
    else
      let log := if hasStatus then acc.2 ++ [setup_msg e.2.2 vcm.length] else acc.2
      (setup_fairing M (col_of vcm) vw lw e.2.1 e.2.2 1 order st, log)

/-- The whole setup phase of `fair`: `A = dict()`, `b` a zero n-by-3
matrix, then the loop over the items of `vert_col_map`. -/
def setup_phase (M : Mesh) (verts : List ℕ) (order : ℕ) (vw lw : ℕ → ℚ)
    (cancel : ℕ → Bool) (hasStatus : Bool) : Except Unit SysState × List String :=
  let vcm := vert_col_map M verts
  (vcm.enum).foldl (setup_step M vcm vw lw order cancel hasStatus)
    (.ok ([], List.replicate vcm.length vzero), [])

/--
A solver backend (linalg.py): `solve(A, b)` returns the variables matrix
or `None` on failure.
-/
abbrev Solver := SparseA → List Vec3 → Option (List Vec3)

/-- linalg.py lines 45-61, `NullSolver.solve`: always `None`. -/
def nullSolver : Solver := fun _ _ => none

/--
The outcome of one call to `fair`: the returned boolean or a propagated
exception (`.error ()`), the final vertex positions, and the sequence of
status messages that were set.
-/
structure FairResult where
  ret : Except Unit Bool
  co : ℕ → Vec3
  log : List String

/--
The apply loop of `fair` (geometry.py lines 261-262): `v.co = x[col]`
over the items of `vert_col_map`.  An out-of-range index raises
IndexError mid-loop, leaving the positions written so far in place.
-/
def apply_loop (x : List Vec3) : List (ℕ × ℕ) → (ℕ → Vec3) → List String → FairResult
  | [], co, log => ⟨.ok true, co, log⟩
  | (v, c) :: rest, co, log =>
    match x[c]? with
    | some p => apply_loop x rest (Function.update co v p) log
    | none => ⟨.error (), co, log⟩

/--
geometry.py lines 216-265, `fair`.  `cancel t` is the value the
cancellation flag is seen to hold at the t-th checkpoint: checkpoints
0..n-1 are the setup-loop iterations, checkpoint n guards the solve and
checkpoint n+1 guards the apply phase ("no event" is `fun t => false`).
`hasStatus` tells whether a status sink was passed.  A cancellation
observed at the solve checkpoint leaves the Python local `x` unbound, so
reaching the apply phase without a still-set flag raises NameError
(modelled by the `none` case below).
-/
def fair (M : Mesh) (verts : List ℕ) (order : ℕ) (vw lw : ℕ → ℚ)
    (cancel : ℕ → Bool) (sol : Solver) (hasStatus : Bool) : FairResult :=
  let vcm := vert_col_map M verts
  let n := vcm.length
  match setup_phase M verts order vw lw cancel hasStatus with
  | (.error _, log) => ⟨.error (), M.co, log⟩
  | (.ok (A, b), log0) =>
    let log1 := if !cancel n && hasStatus then log0 ++ ["Solving linear system"] else log0
    let xOpt : Option (Option (List Vec3)) := if cancel n then none else some (sol A b)
    if cancel (n + 1) then ⟨.ok false, M.co, log1⟩
    else
      match xOpt with
      | none => ⟨.error (), M.co, log1⟩
      | some none => ⟨.ok false, M.co, log1⟩
      | some (some x) =>
        let log2 := if hasStatus then log1 ++ ["Applying results"] else log1
        apply_loop x vcm M.co log2

/--
Modelled from the spec (section 4.2): the contract of
`build_row(vertex v, row i, order k, multiplier m)`.  The matrix is the
spec's abstract sparse matrix — a total function on (row, column) keys
with absent entries read as zero — so the base case "subtracts m from
A[i,j], accumulating" is a pointwise functional update, and the boundary
case "adds m * v.position component-wise to b[i]".  For `k > 0` it
recurses on each loop destination with multiplier `w_i*w_ij*m` and then
once on `v` itself with multiplier `-(m * w_i * (sum of w_ij))`, exactly
as the spec phrases the multipliers.
-/
def build_row (M : Mesh) (colMap : ℕ → Option ℕ) (vw lw : ℕ → ℚ)
    (v i : ℕ) (k : ℕ) (m : ℚ) (A : (ℕ × ℕ) → ℚ) (b : List Vec3) :
    Except Unit (((ℕ × ℕ) → ℚ) × List Vec3) :=
  match k with
  | 0 =>
    match colMap v with
    | some j => .ok (Function.update A (i, j) (A (i, j) - m), b)
    | none =>
      if h : i < b.length then
        .ok (A, b.set i (vadd (b.get ⟨i, h⟩) (vsmul m (M.co v))))
      else
        .error ()
  | k + 1 =>
    let w_i := vw v
    match (M.loops v).foldlM
        (fun st l => build_row M colMap vw lw l.2 i k (w_i * lw l.1 * m) st.1 st.2) (A, b) with
    | .error e => .error e
    | .ok st1 =>
      build_row M colMap vw lw v i k
        (-(m * w_i * (((M.loops v).map (fun l => lw l.1)).sum))) st1.1 st1.2

/-- The abstraction of the association-list matrix to the spec's total
function with implicit zeros. -/
def funA (A : SparseA) : (ℕ × ℕ) → ℚ := fun k => (getA A k).getD 0

/--
A fuel-bounded reading of the `setup_fairing` recursion: every call —
including the recursive calls made from inside the loop over
`v.link_loops` — consumes one unit of fuel, and a run that would need
more nested calls than the fuel allows answers `none`.  Apart from the
fuel bookkeeping this is the same function as `setup_fairing`.
-/
def setup_fuel (M : Mesh) (vcm : ℕ → Option ℕ) (vw lw : ℕ → ℚ)
    (fuel : ℕ) (v i : ℕ) (multiplier : ℚ) (depth : ℕ) (st : SysState) :
    Option (Except Unit SysState) :=
  match fuel with
  | 0 => none
  | fuel + 1 =>
    match depth, st with
    | 0, (A, b) =>
      match vcm v with
      | some j => some (.ok (subA A (i, j) multiplier, b))
      | none =>
        if h : i < b.length then
          some (.ok (A, b.set i (vadd (b.get ⟨i, h⟩) (vsmul multiplier (M.co v)))))
        else
          some (.error ())
    | d + 1, st =>
      let w_i := vw v
      match ((M.loops v).foldlM
          (fun (est : Except Unit SysState) (l : ℕ × ℕ) =>
            match est with
            | .error e => some (.error e)
            | .ok st => setup_fuel M vcm vw lw fuel l.2 i (w_i * lw l.1 * multiplier) d st)
          (Except.ok st) : Option (Except Unit SysState)) with
      | none => none
      | some (.error e) => some (.error e)
      | some (.ok st1) =>
        setup_fuel M vcm vw lw fuel v i
          (-1 * w_i * (((M.loops v).map (fun l => lw l.1)).sum) * multiplier) d st1

/-!
The weight library of geometry.py, embedded over the reals.  Angles are
the idealization of mathutils/BMesh angle computations:
`arccos (dot u v / (|u| * |v|))`.
-/

noncomputable section RealWeights

/-- A 3D coordinate vector over the reals, for the weight functions. -/
structure Vec3R where
  x : ℝ
  y : ℝ
  z : ℝ

namespace Vec3R

/-- Vector subtraction. -/
def sub (a b : Vec3R) : Vec3R := ⟨a.x - b.x, a.y - b.y, a.z - b.z⟩

/-- Vector addition. -/
def add (a b : Vec3R) : Vec3R := ⟨a.x + b.x, a.y + b.y, a.z + b.z⟩

/-- Scalar multiplication. -/
def smul (m : ℝ) (a : Vec3R) : Vec3R := ⟨m * a.x, m * a.y, m * a.z⟩

/-- Division by a scalar. -/
def sdiv (a : Vec3R) (m : ℝ) : Vec3R := ⟨a.x / m, a.y / m, a.z / m⟩

/-- Dot product. -/
def dot (a b : Vec3R) : ℝ := a.x * b.x + a.y * b.y + a.z * b.z

/-- Cross product. -/
def cross (a b : Vec3R) : Vec3R :=
  ⟨a.y * b.z - a.z * b.y, a.z * b.x - a.x * b.z, a.x * b.y - a.y * b.x⟩

/-- `length_squared` of mathutils. -/
def len_sq (a : Vec3R) : ℝ := dot a a

/-- Euclidean length. -/
def len (a : Vec3R) : ℝ := Real.sqrt (len_sq a)

/-- The zero vector. -/
def zero : Vec3R := ⟨0, 0, 0⟩

end Vec3R

instance : DecidableEq Vec3R := Classical.decEq _

/-- `mathutils.Vector.angle` / BMesh corner angles:
`arccos (u·v / (|u|·|v|))` (arccos clamps its argument). -/
def vangle (u v : Vec3R) : ℝ :=
  Real.arccos (Vec3R.dot u v / (Vec3R.len u * Vec3R.len v))

/-- `mathutils.geometry.area_tri`: half the cross-product length. -/
def area_tri (a b c : Vec3R) : ℝ :=
  Vec3R.len (Vec3R.cross (Vec3R.sub b a) (Vec3R.sub c a)) / 2

/-- geometry.py lines 29-52, `calc_circumcenter`. -/
def calc_circumcenter (a b c : Vec3R) : Vec3R :=
  let ab := Vec3R.sub b a
  let ac := Vec3R.sub c a
  let ab_cross_ac := Vec3R.cross ab ac
  if Vec3R.len_sq ab_cross_ac > 0 then
    let d := Vec3R.add (Vec3R.smul (Vec3R.len_sq ac) (Vec3R.cross ab_cross_ac ab))
                       (Vec3R.smul (Vec3R.len_sq ab) (Vec3R.cross ac ab_cross_ac))
    Vec3R.add a (Vec3R.sdiv d (2 * Vec3R.len_sq ab_cross_ac))
  else
    a

/-- `sys.maxsize` on a 64-bit platform. -/
def sys_maxsize : ℝ := 2 ^ 63 - 1

/--
The local data of a vertex `v` that the vertex-weight functions read:
the number of `v.link_edges`, the position `v.co`, and for each loop of
`v.link_loops` the pair (`l.link_loop_next.vert.co`,
`l.link_loop_prev.vert.co`).
-/
structure VertFan where
  degree : ℕ
  co : Vec3R
  loops : List (Vec3R × Vec3R)

/-- geometry.py lines 55-66, `calc_uniform_vertex_weight`:
`1 / len(v.link_edges)`, or `sys.maxsize` for an isolated vertex. -/
def calc_uniform_vertex_weight (v : VertFan) : ℝ :=
  if v.degree ≠ 0 then 1 / (v.degree : ℝ) else sys_maxsize

/-- geometry.py lines 69-85, `calc_barycentric_vertex_weight`. -/
def calc_barycentric_vertex_weight (v : VertFan) : ℝ :=
  let area := (v.loops.map (fun bc => area_tri v.co bc.1 bc.2 / 3)).sum
  if area ≠ 0 then 1 / area else 1e12

/-- The Voronoi-point and sub-triangle areas contributed by one loop of
the fan (geometry.py lines 101-109). -/
def voronoi_loop_area (a : Vec3R) (bc : Vec3R × Vec3R) : ℝ :=
  let b := bc.1
  let c := bc.2
  let d := if vangle (Vec3R.sub b a) (Vec3R.sub c a) < Real.pi / 2 then
      calc_circumcenter a b c
    else
      Vec3R.sdiv (Vec3R.add b c) 2
  area_tri a (Vec3R.sdiv (Vec3R.add a b) 2) d + area_tri a d (Vec3R.sdiv (Vec3R.add a c) 2)

/-- geometry.py lines 88-110, `calc_voronoi_vertex_weight`. -/
def calc_voronoi_vertex_weight (v : VertFan) : ℝ :=
  let area := (v.loops.map (voronoi_loop_area v.co)).sum
  if area ≠ 0 then 1 / area else 1e12

/--
The local data of a loop `l` that the loop-weight functions read:
`l.vert.co` (a), `l.link_loop_next.vert.co` (b, the edge's other end),
`l.link_loop_prev.vert.co` (p), and — when `l.edge` is not a boundary
edge — the apex coordinate of the radial-opposite triangle
(`l.link_loop_radial_next.link_loop_next.link_loop_next.vert.co`).
-/
structure LoopGeom where
  a : Vec3R
  b : Vec3R
  p : Vec3R
  opp : Option Vec3R

/--
One apex contribution of geometry.py lines 130-135: the try block
computes `1 / tan((co_a - co_c).angle(co_b - co_c))`; `Vector.angle`
raises ValueError on a zero-length vector, and the division raises
ZeroDivisionError when the tangent is zero, both caught and replaced by
the `1e-4` fallback.
-/
def cot_contrib (a b c : Vec3R) : ℝ :=
  if Vec3R.sub a c = Vec3R.zero ∨ Vec3R.sub b c = Vec3R.zero then 1e-4
  else if Real.tan (vangle (Vec3R.sub a c) (Vec3R.sub b c)) = 0 then 1e-4
  else 1 / Real.tan (vangle (Vec3R.sub a c) (Vec3R.sub b c))

/-- geometry.py lines 113-137, `calc_cotangent_loop_weight`. -/
def calc_cotangent_loop_weight (l : LoopGeom) : ℝ :=
  let coords := [l.p] ++ (match l.opp with | some q => [q] | none => [])
  ((coords.map (cot_contrib l.a l.b)).sum) / 2

/-- geometry.py lines 140-158, `calc_mvc_loop_weight`.  The loop's own
corner angle is at `a` between the edges to `b` and to `p`; the radial
neighbor's corner angle (`l.link_loop_radial_next.link_loop_next`) is at
`a` between the edges to the apex `q` and to `b`. -/
def calc_mvc_loop_weight (l : LoopGeom) : ℝ :=
  let length := Vec3R.len (Vec3R.sub l.b l.a)
  if length > 0 then
    (Real.tan (vangle (Vec3R.sub l.b l.a) (Vec3R.sub l.p l.a) / 2) +
      (match l.opp with
       | some q => Real.tan (vangle (Vec3R.sub q l.a) (Vec3R.sub l.b l.a) / 2)
       | none => 0)) / length
  else 0

/-- types.py line 423: the uniform loop weight `lambda l: 1`. -/
def calc_uniform_loop_weight (_l : LoopGeom) : ℝ := 1

/-- A boundary-edge loop whose single opposite angle (at the previous
vertex, the origin) is 135 degrees — an ordinary obtuse triangle. -/
def obtuseLoop : LoopGeom := ⟨⟨1, 0, 0⟩, ⟨-1, 1, 0⟩, ⟨0, 0, 0⟩, none⟩

end RealWeights

/-!
The control skeleton of the two worker threads of operators.py, for the
two-pass fairing protocol.  The cancellation event is a monotone flag:
it is read at each `is_cancelled()` checkpoint, may be set externally
between any two checkpoints (the `e*` booleans), and is set internally
by `self.cancel()` (the thread is alive while `run` executes, so
`cancel` always sets the event).  The results the two `geometry.fair`
calls would return are supplied as the oracles `r1` and `r2`; `calls`
records which of the two fair invocations were made, in order.
-/

/-- The observable outcome of one worker `run`. -/
structure WorkerTrace where
  flag : Bool
  calls : List ℕ

/-- operators.py lines 158-220 (`MESH_OT_fair_vertices_internal`'s
worker): guarded blocks for affected-vertex collection and (when `tri`)
triangulation, then the pre-fairing pass (fair call 1, order 1, uniform
weights) whose failure cancels the thread, then the requested pass
(fair call 2, Voronoi/cotangent weights) whose failure also cancels. -/
def worker_run_mesh (e1 e2 e3 e4 : Bool) (tri r1 r2 : Bool) : WorkerTrace :=
  let f0 := e1
  -- Determine which vertices are affected (guarded; no flag effect).
  let f1 := f0 || e2
  -- Triangulate region (guarded by the flag and tri; no flag effect).
  let _ := !f1 && tri
  let f2 := f1 || e3
  let (f3, calls1) := if !f2 then (if !r1 then (true, [1]) else (f2, [1])) else (f2, [])
  let f4 := f3 || e4
  let (f5, calls2) := if !f4 then (if !r2 then (true, [2]) else (f4, [2])) else (f4, [])
  -- Update the mesh (unguarded; no flag effect).
  ⟨f5, calls1 ++ calls2⟩

/-- operators.py lines 358-441 (`SCULPT_OT_fair_vertices_internal`'s
worker): as the mesh worker, with an extra cancellation when the
affected set is empty (`aEmpty`) and a guarded final mesh update. -/
def worker_run_sculpt (e1 e2 e3 e4 e5 e6 : Bool) (aEmpty r1 r2 : Bool) : WorkerTrace :=
  let f0 := e1
  -- Determine which vertices are affected (guarded; no flag effect).
  let f1 := f0 || e2
  -- Cancel if there is no work to be done.
  let f2 := if !f1 && aEmpty then true else f1
  let f3 := f2 || e3
  -- Triangulate region (guarded; no flag effect).
  let f4 := f3 || e4
  let (f5, calls1) := if !f4 then (if !r1 then (true, [1]) else (f4, [1])) else (f4, [])
  let f6 := f5 || e5
  let (f7, calls2) := if !f6 then (if !r2 then (true, [2]) else (f6, [2])) else (f6, [])
  let f8 := f7 || e6
  -- Update the mesh (guarded; no flag effect).
  let _ := !f8
  ⟨f8, calls1 ++ calls2⟩

/-!
Concrete data used by witnesses and counterexamples.
-/

/-- A mesh on which every vertex is a boundary vertex. -/
def meshAllBoundary : Mesh :=
  ⟨fun _ => ⟨1, 2, 3⟩, fun _ => true, fun _ => false, fun _ => []⟩

/-- A mesh whose vertices are all interior; vertex 0 has one incident
loop whose next vertex is 1 (and vertex 1 is not in the affected list in
the duplicate-input counterexample, so it contributes to `b`). -/
def meshDup : Mesh :=
  ⟨fun _ => ⟨1, 0, 0⟩, fun _ => false, fun _ => false,
    fun v => if v = 0 then [(0, 1)] else []⟩

/-- A small mesh: vertex 0 interior with a single loop to the boundary
vertex 1 at position (6, 0, 0). -/
def meshOneRow : Mesh :=
  ⟨fun v => if v = 0 then ⟨0, 0, 0⟩ else ⟨6, 0, 0⟩,
    fun v => !(v == 0), fun _ => false,
    fun v => if v = 0 then [(0, 1)] else []⟩

/-- A concrete backend for witnesses, honouring the Sparse Solver Port
contract the way the NumPy/SciPy backends do: it rejects (returns None
for) a system with out-of-range keys, and otherwise returns an n-row
result (here simply `b`). -/
def checkedSolver : Solver := fun A b =>
  if (keysA A).all (fun k => decide (k.1 < b.length) && decide (k.2 < b.length)) then
    some b
  else none

/-!
Helper lemmas.
-/

theorem foldl_of_fixed {σ α : Type _} (f : σ → α → σ) (ls : List α) (s : σ)
    (hf : ∀ s a, f s a = s) : ls.foldl f s = s := by
  induction ls generalizing s with
  | nil => rfl
  | cons a as ih => simp [List.foldl_cons, hf, ih]

theorem foldlM_except_nil {σ α : Type _} (f : σ → α → Except Unit σ) (st : σ) :
    List.foldlM f st [] = .ok st := rfl

theorem foldlM_except_cons {σ α : Type _} (f : σ → α → Except Unit σ) (st : σ)
    (a : α) (as : List α) :
    List.foldlM f st (a :: as) = (f st a).bind (fun s => List.foldlM f s as) := rfl

theorem foldlM_except_inv {σ α : Type _} (f : σ → α → Except Unit σ) (P : σ → Prop) :
    ∀ (ls : List α) (st st' : σ), ls.foldlM f st = .ok st' →
      (∀ s a, a ∈ ls → ∀ s', f s a = .ok s' → P s → P s') → P st → P st' := by
  intro ls
  induction ls with
  | nil =>
    intro st st' h hf hst
    rw [foldlM_except_nil] at h
    cases h
    exact hst
  | cons a as ih =>
    intro st st' h hf hst
    rw [foldlM_except_cons] at h
    cases hfa : f st a with
    | error e => rw [hfa] at h; exact absurd h (by simp [Except.bind])
    | ok s1 =>
      rw [hfa] at h
      simp only [Except.bind] at h
      exact ih s1 st' h (fun s b hb => hf s b (List.mem_cons_of_mem a hb))
        (hf st a (List.mem_cons_self a as) s1 hfa hst)

theorem foldlM_except_total {σ α : Type _} (f : σ → α → Except Unit σ) (P : σ → Prop) :
    ∀ (ls : List α) (st : σ), P st →
      (∀ s a, a ∈ ls → P s → ∃ s', f s a = .ok s' ∧ P s') →
      ∃ st', ls.foldlM f st = .ok st' ∧ P st' := by
  intro ls
  induction ls with
  | nil =>
    intro st hst _
    exact ⟨st, foldlM_except_nil f st, hst⟩
  | cons a as ih =>
    intro st hst hf
    obtain ⟨s1, hs1, hP1⟩ := hf st a (List.mem_cons_self a as) hst
    obtain ⟨st', hst', hP'⟩ := ih s1 hP1 (fun s b hb => hf s b (List.mem_cons_of_mem a hb))
    exact ⟨st', by rw [foldlM_except_cons, hs1]; simpa [Except.bind] using hst', hP'⟩

theorem setup_phase_cancelled (M : Mesh) (verts : List ℕ) (order : ℕ) (vw lw : ℕ → ℚ)
    (cancel : ℕ → Bool) (hasStatus : Bool) (hc : ∀ t, cancel t = true) :
    setup_phase M verts order vw lw cancel hasStatus =
      (.ok ([], List.replicate (vert_col_map M verts).length vzero), []) := by
  unfold setup_phase
  apply foldl_of_fixed
  intro s a
  obtain ⟨x, log⟩ := s
  cases x with
  | error u => rfl
  | ok st => simp [setup_step, hc]

/--
C5: if the cancellation flag is set before `fair` is called and, being
monotonic, stays set — i.e. every checkpoint read sees it set — then the
call returns `false` and every vertex position is exactly unchanged.
(geometry.py lines 243-265.)
-/
theorem fair_cancelled_before_is_noop (M : Mesh) (verts : List ℕ) (order : ℕ)
    (vw lw : ℕ → ℚ) (cancel : ℕ → Bool) (sol : Solver) (hasStatus : Bool)
    (hc : ∀ t, cancel t = true) :
    (fair M verts order vw lw cancel sol hasStatus).ret = .ok false ∧
    ∀ w, (fair M verts order vw lw cancel sol hasStatus).co w = M.co w := by
  have hs := setup_phase_cancelled M verts order vw lw cancel hasStatus hc
  unfold fair
  rw [hs]
  simp [hc]

/-- Witness for C5 at a concrete mesh, with the flag always set. -/
theorem fair_cancelled_before_is_noop_witness :
    (fair meshOneRow [0] 1 (fun _ => 1) (fun _ => 1) (fun _ => true)
      nullSolver true).ret = .ok false ∧
    ∀ w, (fair meshOneRow [0] 1 (fun _ => 1) (fun _ => 1) (fun _ => true)
      nullSolver true).co w = meshOneRow.co w :=
  fair_cancelled_before_is_noop meshOneRow [0] 1 (fun _ => 1) (fun _ => 1)
    (fun _ => true) nullSolver true (fun _ => rfl)

/--
C6: the two-pass fairing protocol of both worker threads in operators.py
(lines 191-215 and 410-434): whatever the external cancellation activity
and options, if the requested-order pass (fair call 2) runs then the
pre-fairing pass (fair call 1) ran and returned `true`; equivalently, a
failed or cancelled or skipped pre-fairing pass means the second call to
`fair` is never made.
-/
theorem worker_second_pass_needs_first (e1 e2 e3 e4 e5 e6 tri aEmpty r1 r2 : Bool) :
    (2 ∈ (worker_run_mesh e1 e2 e3 e4 tri r1 r2).calls →
      r1 = true ∧ 1 ∈ (worker_run_mesh e1 e2 e3 e4 tri r1 r2).calls) ∧
    (2 ∈ (worker_run_sculpt e1 e2 e3 e4 e5 e6 aEmpty r1 r2).calls →
      r1 = true ∧ 1 ∈ (worker_run_sculpt e1 e2 e3 e4 e5 e6 aEmpty r1 r2).calls) := by
  revert e1 e2 e3 e4 e5 e6 tri aEmpty r1 r2
  decide

/-- Witness for C6: in the run where nothing is cancelled and both
passes succeed, the second call is made and is indeed preceded by a
successful first call. -/
theorem worker_second_pass_needs_first_witness :
    true = true ∧ 1 ∈ (worker_run_mesh false false false false false true true).calls :=
  (worker_second_pass_needs_first false false false false false false false false
    true true).1 (by decide)

theorem interior_verts_nil (M : Mesh) (verts : List ℕ)
    (hall : ∀ v ∈ verts, M.is_boundary v = true ∨ M.is_wire v = true) :
    interior_verts M verts = [] := by
  unfold interior_verts
  rw [List.filter_eq_nil_iff]
  intro v hv
  rcases hall v hv with h | h <;> simp [h]

theorem vert_col_map_nil (M : Mesh) (verts : List ℕ)
    (hall : ∀ v ∈ verts, M.is_boundary v = true ∨ M.is_wire v = true) :
    vert_col_map M verts = [] := by
  unfold vert_col_map
  rw [interior_verts_nil M verts hall]
  rfl

/--
C3 (amended): if every affected vertex is boundary or wire (including
the empty-list case) and the call is not cancelled, `fair` performs zero
position writes, and its boolean result is exactly whether the solver
backend returns a (trivially empty) result for the assembled 0-by-0
system — `true` for backends that solve the empty system, `false` for
the null backend.
-/
theorem fair_empty_interior (M : Mesh) (verts : List ℕ) (order : ℕ)
    (vw lw : ℕ → ℚ) (cancel : ℕ → Bool) (sol : Solver) (hasStatus : Bool)
    (hall : ∀ v ∈ verts, M.is_boundary v = true ∨ M.is_wire v = true)
    (hnc : ∀ t, cancel t = false) :
    (fair M verts order vw lw cancel sol hasStatus).ret = .ok (sol [] []).isSome ∧
    ∀ w, (fair M verts order vw lw cancel sol hasStatus).co w = M.co w := by
  have hvcm := vert_col_map_nil M verts hall
  unfold fair setup_phase
  rw [hvcm]
  simp only [List.enum_nil, List.foldl_nil, List.length_nil, List.replicate_zero]
  cases hsol : sol [] [] <;> simp [hnc, hsol, apply_loop]

/--
C3 counterexample: with the null solver backend (the module default) an
all-boundary selection makes `fair` return `false`, not `true` as the
claim states.
-/
theorem fair_empty_interior_null_backend_false :
    (∀ v ∈ [0], meshAllBoundary.is_boundary v = true) ∧
    (fair meshAllBoundary [0] 1 (fun _ => 1) (fun _ => 1) (fun _ => false)
      nullSolver true).ret = .ok false :=
  ⟨by decide, rfl⟩

theorem dict_insert_fresh (d : List (ℕ × ℕ)) (k c : ℕ)
    (h : ∀ q ∈ d, q.1 ≠ k) : dict_insert d k c = d ++ [(k, c)] := by
  unfold dict_insert
  rw [if_neg]
  simp only [List.any_eq_true, beq_iff_eq, not_exists]
  exact fun q hq => h q hq.1 hq.2

theorem foldl_dict_insert_fresh :
    ∀ (pairs : List (ℕ × ℕ)) (d : List (ℕ × ℕ)),
      (∀ p ∈ pairs, ∀ q ∈ d, q.1 ≠ p.2) → (pairs.map Prod.snd).Nodup →
      pairs.foldl (fun d cv => dict_insert d cv.2 cv.1) d
        = d ++ pairs.map (fun cv => (cv.2, cv.1)) := by
  intro pairs
  induction pairs with
  | nil => intro d _ _; simp
  | cons p ps ih =>
    intro d hfresh hnd
    simp only [List.foldl_cons]
    rw [dict_insert_fresh d p.2 p.1 (fun q hq => hfresh p (List.mem_cons_self p ps) q hq)]
    rw [ih (d ++ [(p.2, p.1)]) ?_ ?_]
    · simp
    · intro p' hp' q hq
      rcases List.mem_append.1 hq with hq | hq
      · exact hfresh p' (List.mem_cons_of_mem p hp') q hq
      · have : q = (p.2, p.1) := by simpa using hq
        subst this
        simp only [List.map_cons, List.nodup_cons] at hnd
        intro hc
        apply hnd.1
        rw [show p.2 = p'.2 from hc]
        exact List.mem_map_of_mem Prod.snd hp'
    · simp only [List.map_cons, List.nodup_cons] at hnd
      exact hnd.2

/-- Under a duplicate-free affected list, the Python dict comprehension
is a plain enumeration: key list = the interior vertices, value list =
0..n-1 (this is the Column Map bijection). -/
theorem vert_col_map_of_nodup (M : Mesh) (verts : List ℕ) (h : verts.Nodup) :
    vert_col_map M verts
      = (interior_verts M verts).enum.map (fun cv => (cv.2, cv.1)) := by
  unfold vert_col_map
  rw [foldl_dict_insert_fresh _ [] (by simp) ?_]
  · simp
  · rw [List.enum_map_snd]
    exact h.filter _

theorem vert_col_map_mem_lt (M : Mesh) (verts : List ℕ) (h : verts.Nodup) :
    ∀ p ∈ vert_col_map M verts, p.2 < (vert_col_map M verts).length := by
  intro p hp
  rw [vert_col_map_of_nodup M verts h] at hp ⊢
  rw [List.length_map]
  obtain ⟨cv, hcv, rfl⟩ := List.mem_map.1 hp
  have hg := List.mem_enum_iff_getElem?.1 hcv
  have hlt : cv.1 < (interior_verts M verts).length := by
    by_contra hge
    rw [List.getElem?_eq_none (le_of_not_lt hge)] at hg
    exact Option.noConfusion hg
  simpa [List.enum_length] using hlt

theorem setup_fairing_succ (M : Mesh) (vcm : ℕ → Option ℕ) (vw lw : ℕ → ℚ)
    (v i : ℕ) (m : ℚ) (d : ℕ) (st : SysState) :
    setup_fairing M vcm vw lw v i m (d + 1) st =
      match (M.loops v).foldlM
          (fun st l => setup_fairing M vcm vw lw l.2 i (vw v * lw l.1 * m) d st) st with
      | .error e => .error e
      | .ok st1 =>
        setup_fairing M vcm vw lw v i
          (-1 * vw v * (((M.loops v).map (fun l => lw l.1)).sum) * m) d st1 := rfl

theorem setup_fairing_length (M : Mesh) (vcm : ℕ → Option ℕ) (vw lw : ℕ → ℚ) :
    ∀ (depth v i : ℕ) (m : ℚ) (st st' : SysState),
      setup_fairing M vcm vw lw v i m depth st = .ok st' →
      st'.2.length = st.2.length := by
  intro depth
  induction depth with
  | zero =>
    intro v i m st st' h
    obtain ⟨A, b⟩ := st
    unfold setup_fairing at h
    cases hv : vcm v with
    | some j => rw [hv] at h; cases h; rfl
    | none =>
      rw [hv] at h
      by_cases hi : i < b.length
      · rw [dif_pos hi] at h; cases h; simp
      · rw [dif_neg hi] at h; cases h
  | succ d ih =>
    intro v i m st st' h
    rw [setup_fairing_succ] at h
    cases hf : (M.loops v).foldlM
        (fun st l => setup_fairing M vcm vw lw l.2 i (vw v * lw l.1 * m) d st) st with
    | error e => simp only [hf] at h; exact Except.noConfusion h
    | ok st1 =>
      simp only [hf] at h
      have h1 : st1.2.length = st.2.length :=
        foldlM_except_inv _ (fun s => s.2.length = st.2.length) _ st st1 hf
          (fun s a _ s' hs' hP => by
            show s'.2.length = st.2.length
            rw [ih _ _ _ _ _ hs']
            exact hP) rfl
      rw [ih _ _ _ _ _ h, h1]

theorem setup_fairing_total (M : Mesh) (vcm : ℕ → Option ℕ) (vw lw : ℕ → ℚ) :
    ∀ (depth v i : ℕ) (m : ℚ) (st : SysState), i < st.2.length →
      ∃ st', setup_fairing M vcm vw lw v i m depth st = .ok st' := by
  intro depth
  induction depth with
  | zero =>
    intro v i m st hi
    obtain ⟨A, b⟩ := st
    unfold setup_fairing
    cases hv : vcm v with
    | some j => exact ⟨_, rfl⟩
    | none => exact ⟨_, by rw [dif_pos hi]⟩
  | succ d ih =>
    intro v i m st hi
    rw [setup_fairing_succ]
    obtain ⟨st1, hst1, hP1⟩ := foldlM_except_total
      (fun st l => setup_fairing M vcm vw lw l.2 i (vw v * lw l.1 * m) d st)
      (fun s => i < s.2.length) (M.loops v) st hi
      (fun s a _ hPs => by
        obtain ⟨s', hs'⟩ := ih a.2 i (vw v * lw a.1 * m) s hPs
        refine ⟨s', hs', ?_⟩
        show i < s'.2.length
        rw [setup_fairing_length M vcm vw lw d _ _ _ _ _ hs']
        exact hPs)
    rw [hst1]
    exact ih v i _ st1 hP1

theorem setup_phase_fold_ok (M : Mesh) (vcm : List (ℕ × ℕ)) (vw lw : ℕ → ℚ)
    (order : ℕ) (cancel : ℕ → Bool) (hasStatus : Bool) :
    ∀ (entries : List (ℕ × (ℕ × ℕ))) (acc : Except Unit SysState × List String)
      (st : SysState), acc.1 = .ok st →
      (∀ e ∈ entries, e.2.2 < st.2.length) →
      ∃ A b, (entries.foldl (setup_step M vcm vw lw order cancel hasStatus) acc).1
          = .ok (A, b) ∧ b.length = st.2.length := by
  intro entries
  induction entries with
  | nil =>
    intro acc st hacc _
    exact ⟨st.1, st.2, by simpa using hacc, rfl⟩
  | cons e es ih =>
    intro acc st hacc hbound
    simp only [List.foldl_cons]
    by_cases hc : cancel e.1 = true
    · have hstep : (setup_step M vcm vw lw order cancel hasStatus acc e).1 = .ok st := by
        obtain ⟨x, log⟩ := acc
        simp only at hacc
        subst hacc
        simp [setup_step, hc]
      exact ih _ st hstep (fun e' he' => hbound e' (List.mem_cons_of_mem e he'))
    · obtain ⟨st', hst'⟩ := setup_fairing_total M (col_of vcm) vw lw order e.2.1 e.2.2 1 st
        (hbound e (List.mem_cons_self e es))
      have hlen := setup_fairing_length M (col_of vcm) vw lw order _ _ _ _ _ hst'
      have hstep : (setup_step M vcm vw lw order cancel hasStatus acc e).1 = .ok st' := by
        obtain ⟨x, log⟩ := acc
        simp only at hacc
        subst hacc
        simp [setup_step, hc, hst']
      obtain ⟨A, b, hAb, hb⟩ := ih _ st' hstep
        (fun e' he' => by rw [hlen]; exact hbound e' (List.mem_cons_of_mem e he'))
      exact ⟨A, b, hAb, by rw [hb, hlen]⟩

/-- Under a duplicate-free affected list the setup phase always
completes without an exception (every row index is within range of `b`),
whatever the cancellation activity. -/
theorem setup_phase_ok_of_nodup (M : Mesh) (verts : List ℕ) (order : ℕ)
    (vw lw : ℕ → ℚ) (cancel : ℕ → Bool) (hasStatus : Bool) (h : verts.Nodup) :
    ∃ A b, (setup_phase M verts order vw lw cancel hasStatus).1 = .ok (A, b) ∧
      b.length = (vert_col_map M verts).length := by
  obtain ⟨A, b, hAb, hb⟩ := setup_phase_fold_ok M (vert_col_map M verts) vw lw order
    cancel hasStatus (vert_col_map M verts).enum
    (.ok ([], List.replicate (vert_col_map M verts).length vzero), [])
    ([], List.replicate (vert_col_map M verts).length vzero) rfl
    (fun e he => by
      simp only [List.length_replicate]
      apply vert_col_map_mem_lt M verts h
      have he2 : e.2 ∈ (vert_col_map M verts).enum.map Prod.snd :=
        List.mem_map_of_mem Prod.snd he
      rwa [List.enum_map_snd] at he2)
  exact ⟨A, b, hAb, by simpa using hb⟩

/--
Witness for the amended C3 at a concrete all-boundary mesh, with a
backend that solves the empty system (so `fair` returns `true`) and
positions untouched.
-/
theorem fair_empty_interior_witness :
    (fair meshAllBoundary [0] 1 (fun _ => 1) (fun _ => 1) (fun _ => false)
      (fun _ _ => some []) true).ret = .ok (((fun _ _ => some []) : Solver) [] []).isSome ∧
    ∀ w, (fair meshAllBoundary [0] 1 (fun _ => 1) (fun _ => 1) (fun _ => false)
      (fun _ _ => some []) true).co w = meshAllBoundary.co w :=
  fair_empty_interior meshAllBoundary [0] 1 (fun _ => 1) (fun _ => 1) (fun _ => false)
    (fun _ _ => some []) true (by decide) (fun _ => rfl)

/--
C4 (amended): with the null backend, `fair` never returns `true` and
never mutates any position; for a duplicate-free affected list (which is
what every caller in operators.py produces) and a monotone cancellation
flag it returns `false`, but a duplicate-containing list can instead make
it raise an uncaught IndexError (still without mutating anything).
-/
theorem fair_null_backend (M : Mesh) (verts : List ℕ) (order : ℕ)
    (vw lw : ℕ → ℚ) (cancel : ℕ → Bool) (hasStatus : Bool) :
    ((fair M verts order vw lw cancel nullSolver hasStatus).ret ≠ .ok true) ∧
    (∀ w, (fair M verts order vw lw cancel nullSolver hasStatus).co w = M.co w) ∧
    (verts.Nodup → (∀ s t, s ≤ t → cancel s = true → cancel t = true) →
      (fair M verts order vw lw cancel nullSolver hasStatus).ret = .ok false) := by
  unfold fair
  rcases hsp : setup_phase M verts order vw lw cancel hasStatus with ⟨x, log⟩
  cases x with
  | error u =>
    refine ⟨by simp, fun w => by simp, fun hnd _ => ?_⟩
    obtain ⟨A, b, hAb, _⟩ := setup_phase_ok_of_nodup M verts order vw lw cancel hasStatus hnd
    rw [hsp] at hAb
    exact absurd hAb (by simp)
  | ok st =>
    obtain ⟨A, b⟩ := st
    by_cases hn : cancel (vert_col_map M verts).length = true
    · by_cases hn1 : cancel ((vert_col_map M verts).length + 1) = true
      · refine ⟨by simp [hn, hn1], fun w => by simp [hn, hn1], fun _ _ => by simp [hn, hn1]⟩
      · refine ⟨by simp [hn, hn1], fun w => by simp [hn, hn1], fun _ hmono => ?_⟩
        have := hmono (vert_col_map M verts).length ((vert_col_map M verts).length + 1)
          (Nat.le_succ _) hn
        exact absurd this (by simp [hn1])
    · by_cases hn1 : cancel ((vert_col_map M verts).length + 1) = true
      · exact ⟨by simp [hn, hn1], fun w => by simp [hn, hn1], fun _ _ => by simp [hn, hn1]⟩
      · exact ⟨by simp [hn, hn1, nullSolver], fun w => by simp [hn, hn1, nullSolver],
          fun _ _ => by simp [hn, hn1, nullSolver]⟩

/--
Witness for the amended C4 at a concrete duplicate-free input: the
inner hypotheses (duplicate-free list, monotone flag) discharged.
-/
theorem fair_null_backend_witness :
    (fair meshOneRow [0] 1 (fun _ => 1) (fun _ => 1) (fun _ => false)
      nullSolver true).ret = .ok false :=
  (fair_null_backend meshOneRow [0] 1 (fun _ => 1) (fun _ => 1) (fun _ => false)
    true).2.2 (by decide) (fun _ _ _ h => h)

/--
C4 counterexample: the affected list `[0, 0]` (vertex 0 listed twice, all
vertices interior, vertex 0 adjacent to a vertex outside the list) gets
column index 1 in a 1-row system, so assembly indexes `b[1]` and raises
IndexError: `fair` with the null backend terminates with an exception,
not with the return value `false` — refuting "returns false for every
input vertex list".
-/
theorem fair_null_backend_duplicates_raise :
    (fair meshDup [0, 0] 1 (fun _ => 1) (fun _ => 1) (fun _ => false) nullSolver
      false).ret = .error () ∧
    (fair meshDup [0, 0] 1 (fun _ => 1) (fun _ => 1) (fun _ => false) nullSolver
      false).ret ≠ .ok false :=
  ⟨rfl, fun h => Except.noConfusion h⟩

theorem setup_step_fst_eq (M : Mesh) (vcm : List (ℕ × ℕ)) (vw lw : ℕ → ℚ)
    (order : ℕ) (cancel : ℕ → Bool) (hs1 hs2 : Bool)
    (acc1 acc2 : Except Unit SysState × List String) (e : ℕ × (ℕ × ℕ))
    (h : acc1.1 = acc2.1) :
    (setup_step M vcm vw lw order cancel hs1 acc1 e).1
      = (setup_step M vcm vw lw order cancel hs2 acc2 e).1 := by
  obtain ⟨x1, log1⟩ := acc1
  obtain ⟨x2, log2⟩ := acc2
  simp only at h
  subst h
  cases x1 with
  | error u => rfl
  | ok st => by_cases hc : cancel e.1 = true <;> simp [setup_step, hc]

theorem setup_phase_fst_eq (M : Mesh) (verts : List ℕ) (order : ℕ)
    (vw lw : ℕ → ℚ) (cancel : ℕ → Bool) (hs1 hs2 : Bool) :
    (setup_phase M verts order vw lw cancel hs1).1
      = (setup_phase M verts order vw lw cancel hs2).1 := by
  unfold setup_phase
  suffices h : ∀ (es : List (ℕ × (ℕ × ℕ))) (acc1 acc2 : Except Unit SysState × List String),
      acc1.1 = acc2.1 →
      (es.foldl (setup_step M (vert_col_map M verts) vw lw order cancel hs1) acc1).1
        = (es.foldl (setup_step M (vert_col_map M verts) vw lw order cancel hs2) acc2).1 by
    exact h (vert_col_map M verts).enum
      (.ok ([], List.replicate (vert_col_map M verts).length vzero), [])
      (.ok ([], List.replicate (vert_col_map M verts).length vzero), []) rfl
  intro es
  induction es with
  | nil => intro acc1 acc2 h; exact h
  | cons e es ih =>
    intro acc1 acc2 h
    simp only [List.foldl_cons]
    exact ih _ _ (setup_step_fst_eq M _ vw lw order cancel hs1 hs2 acc1 acc2 e h)

theorem apply_loop_ret_co (x : List Vec3) :
    ∀ (entries : List (ℕ × ℕ)) (co : ℕ → Vec3) (log1 log2 : List String),
      (apply_loop x entries co log1).ret = (apply_loop x entries co log2).ret ∧
      (apply_loop x entries co log1).co = (apply_loop x entries co log2).co := by
  intro entries
  induction entries with
  | nil => intro co log1 log2; exact ⟨rfl, rfl⟩
  | cons p rest ih =>
    intro co log1 log2
    obtain ⟨v, c⟩ := p
    cases hx : x[c]? with
    | some q => simpa [apply_loop, hx] using ih (Function.update co v q) log1 log2
    | none => simp [apply_loop, hx]

/--
C9: the progress-status sink has no effect on the computation — for
every input, running `fair` with a status sink and running it without
one yields the same return value (or exception) and the same final
vertex positions; only the emitted message log differs.
(geometry.py lines 216-265; the status object of types.py has no
subscribed observers in any caller, so `Property.set` touches nothing
the computation reads.)
-/
theorem fair_status_no_interference (M : Mesh) (verts : List ℕ) (order : ℕ)
    (vw lw : ℕ → ℚ) (cancel : ℕ → Bool) (sol : Solver) (hs1 hs2 : Bool) :
    (fair M verts order vw lw cancel sol hs1).ret
      = (fair M verts order vw lw cancel sol hs2).ret ∧
    ∀ w, (fair M verts order vw lw cancel sol hs1).co w
      = (fair M verts order vw lw cancel sol hs2).co w := by
  have hsp := setup_phase_fst_eq M verts order vw lw cancel hs1 hs2
  unfold fair
  rcases h1 : setup_phase M verts order vw lw cancel hs1 with ⟨x1, log1⟩
  rcases h2 : setup_phase M verts order vw lw cancel hs2 with ⟨x2, log2⟩
  rw [h1, h2] at hsp
  simp only at hsp
  subst hsp
  cases x1 with
  | error u => exact ⟨rfl, fun w => rfl⟩
  | ok st =>
    obtain ⟨A, b⟩ := st
    by_cases hn : cancel (vert_col_map M verts).length = true
    · by_cases hn1 : cancel ((vert_col_map M verts).length + 1) = true
      · exact ⟨by simp [hn, hn1], fun w => by simp [hn, hn1]⟩
      · exact ⟨by simp [hn, hn1], fun w => by simp [hn, hn1]⟩
    · by_cases hn1 : cancel ((vert_col_map M verts).length + 1) = true
      · exact ⟨by simp [hn, hn1], fun w => by simp [hn, hn1]⟩
      · cases hx : sol A b with
        | none => exact ⟨by simp [hn, hn1, hx], fun w => by simp [hn, hn1, hx]⟩
        | some x =>
          have happ := apply_loop_ret_co x (vert_col_map M verts) M.co
          refine ⟨?_, fun w => ?_⟩
          · simp only [hn, hn1, hx]
            simpa using (happ _ _).1
          · simp only [hn, hn1, hx]
            exact congrFun (happ _ _).2 w

theorem build_row_succ (M : Mesh) (colMap : ℕ → Option ℕ) (vw lw : ℕ → ℚ)
    (v i : ℕ) (k : ℕ) (m : ℚ) (A : (ℕ × ℕ) → ℚ) (b : List Vec3) :
    build_row M colMap vw lw v i (k + 1) m A b =
      match (M.loops v).foldlM
          (fun st l => build_row M colMap vw lw l.2 i k (vw v * lw l.1 * m) st.1 st.2)
          (A, b) with
      | .error e => .error e
      | .ok st1 =>
        build_row M colMap vw lw v i k
          (-(m * vw v * (((M.loops v).map (fun l => lw l.1)).sum))) st1.1 st1.2 := rfl

theorem getA_subA : ∀ (A : SparseA) (k q : ℕ × ℕ) (m : ℚ),
    getA (subA A k m) q = if k = q then some (funA A q - m) else getA A q := by
  intro A
  induction A with
  | nil =>
    intro k q m
    by_cases hkq : k = q <;> simp [subA, getA, funA, hkq]
  | cons p rest ih =>
    intro k q m
    obtain ⟨kk, val⟩ := p
    by_cases hkk : kk = k
    · subst hkk
      by_cases hkq : kk = q <;> simp [subA, getA, funA, hkq]
    · by_cases hkq : k = q
      · subst hkq
        have hkkq : ¬kk = k := hkk
        simp [subA, getA, funA, hkk, hkkq, ih]
      · by_cases hq : kk = q
        · subst hq
          simp [subA, getA, hkk, hkq]
        · simp [subA, getA, funA, hkk, hq, hkq, ih]

theorem funA_subA (A : SparseA) (k : ℕ × ℕ) (m : ℚ) :
    funA (subA A k m) = Function.update (funA A) k (funA A k - m) := by
  funext q
  by_cases hkq : k = q
  · subst hkq
    simp [funA, getA_subA, Function.update]
  · have hqk : ¬q = k := fun h => hkq h.symm
    simp [funA, getA_subA, Function.update, hkq, hqk]

theorem foldlM_except_map {σ τ L : Type _} (g : σ → τ)
    (f1 : σ → L → Except Unit σ) (f2 : τ → L → Except Unit τ) :
    ∀ (ls : List L) (s : σ),
      (∀ s' l, l ∈ ls → Except.map g (f1 s' l) = f2 (g s') l) →
      Except.map g (ls.foldlM f1 s) = ls.foldlM f2 (g s) := by
  intro ls
  induction ls with
  | nil => intro s _; rfl
  | cons a as ih =>
    intro s h
    rw [foldlM_except_cons, foldlM_except_cons]
    cases hfa : f1 s a with
    | error e =>
      have h2 : f2 (g s) a = .error e := by rw [← h s a (List.mem_cons_self a as), hfa]; rfl
      simp [h2, Except.bind, Except.map]
    | ok s1 =>
      have h2 : f2 (g s) a = .ok (g s1) := by rw [← h s a (List.mem_cons_self a as), hfa]; rfl
      simp only [h2, Except.bind]
      exact ih s1 (fun s' l hl => h s' l (List.mem_cons_of_mem a hl))

/--
C2: the recursive system builder `setup_fairing` of geometry.py meets
the spec's `build_row` contract (spec section 4.2), stated as a
refinement: under the abstraction that reads the association-list matrix
as the spec's total coefficient function with implicit zeros (`funA`),
running `setup_fairing` is exactly running the spec-modelled `build_row`
— same base-case updates of `A[i,j]` and `b[i]`, same recursion over the
loop destinations with multiplier `w_i*w_ij*m`, same final self-call
with multiplier `-m*w_i*(sum of w_ij)`, same order, same propagated
exception.
-/
theorem setup_fairing_meets_spec_contract (M : Mesh) (vcm : ℕ → Option ℕ)
    (vw lw : ℕ → ℚ) :
    ∀ (depth v i : ℕ) (m : ℚ) (A : SparseA) (b : List Vec3),
      Except.map (fun st => (funA st.1, st.2))
          (setup_fairing M vcm vw lw v i m depth (A, b))
        = build_row M vcm vw lw v i depth m (funA A) b := by
  intro depth
  induction depth with
  | zero =>
    intro v i m A b
    unfold setup_fairing build_row
    cases hv : vcm v with
    | some j => simp [Except.map, funA_subA]
    | none =>
      by_cases hi : i < b.length
      · simp [dif_pos hi, Except.map]
      · simp [dif_neg hi, Except.map]
  | succ d ih =>
    intro v i m A b
    rw [setup_fairing_succ, build_row_succ]
    have hfold := foldlM_except_map (fun st : SysState => (funA st.1, st.2))
      (fun st l => setup_fairing M vcm vw lw l.2 i (vw v * lw l.1 * m) d st)
      (fun st l => build_row M vcm vw lw l.2 i d (vw v * lw l.1 * m) st.1 st.2)
      (M.loops v) (A, b)
      (fun s' l _ => by obtain ⟨A', b'⟩ := s'; exact ih l.2 i (vw v * lw l.1 * m) A' b')
    cases hf : (M.loops v).foldlM
        (fun st l => setup_fairing M vcm vw lw l.2 i (vw v * lw l.1 * m) d st) (A, b) with
    | error e =>
      rw [hf] at hfold
      rw [← hfold]
      simp [Except.map]
    | ok st1 =>
      rw [hf] at hfold
      rw [← hfold]
      simp only [Except.map]
      obtain ⟨A1, b1⟩ := st1
      rw [show -(m * vw v * (((M.loops v).map (fun l => lw l.1)).sum))
            = -1 * vw v * (((M.loops v).map (fun l => lw l.1)).sum) * m by ring]
      exact ih v i _ A1 b1

theorem foldlM_option_cons {σ L : Type _} (f : σ → L → Option σ) (s : σ)
    (a : L) (as : List L) :
    List.foldlM f s (a :: as) = (f s a).bind (fun s' => List.foldlM f s' as) := rfl

theorem foldlM_option_err {σ L : Type _}
    (fo : Except Unit σ → L → Option (Except Unit σ))
    (ho : ∀ e l, fo (.error e) l = some (.error e)) :
    ∀ (ls : List L) (e : Unit), ls.foldlM fo (.error e) = some (.error e) := by
  intro ls
  induction ls with
  | nil => intro e; rfl
  | cons a as ih =>
    intro e
    rw [foldlM_option_cons, ho]
    exact ih e

theorem foldlM_option_except {σ L : Type _} (f : σ → L → Except Unit σ)
    (fo : Except Unit σ → L → Option (Except Unit σ))
    (ho : ∀ e l, fo (.error e) l = some (.error e)) :
    ∀ (ls : List L) (st : σ), (∀ s l, l ∈ ls → fo (.ok s) l = some (f s l)) →
      ls.foldlM fo (.ok st) = some (ls.foldlM f st) := by
  intro ls
  induction ls with
  | nil => intro st _; rfl
  | cons a as ih =>
    intro st hk
    rw [foldlM_option_cons, foldlM_except_cons, hk st a (List.mem_cons_self a as)]
    cases hfa : f st a with
    | error e =>
      simp only [Option.bind, Except.bind]
      exact foldlM_option_err fo ho as e
    | ok s1 =>
      simp only [Option.bind, Except.bind]
      exact ih s1 (fun s l hl => hk s l (List.mem_cons_of_mem a hl))

theorem setup_fuel_succ (M : Mesh) (vcm : ℕ → Option ℕ) (vw lw : ℕ → ℚ)
    (f v i : ℕ) (m : ℚ) (d : ℕ) (st : SysState) :
    setup_fuel M vcm vw lw (f + 1) v i m (d + 1) st =
      match ((M.loops v).foldlM
          (fun (est : Except Unit SysState) (l : ℕ × ℕ) =>
            match est with
            | .error e => some (.error e)
            | .ok st => setup_fuel M vcm vw lw f l.2 i (vw v * lw l.1 * m) d st)
          (Except.ok st) : Option (Except Unit SysState)) with
      | none => none
      | some (.error e) => some (.error e)
      | some (.ok st1) =>
        setup_fuel M vcm vw lw f v i
          (-1 * vw v * (((M.loops v).map (fun l => lw l.1)).sum) * m) d st1 := rfl

/--
C10: `setup_fairing` terminates on every input, and the recursion is
well-founded on the `depth` argument alone: the fuel-instrumented
variant, in which every (nested) call consumes one unit of fuel and a
run needing more nested calls than the given fuel answers `none`,
already agrees with `setup_fairing` whenever `fuel > depth` — whatever
the mesh size or vertex fan-out, because every recursive call is made at
depth exactly `depth - 1` and the `depth = 0` branch makes none.
-/
theorem setup_fairing_fuel_bound (M : Mesh) (vcm : ℕ → Option ℕ) (vw lw : ℕ → ℚ) :
    ∀ (depth fuel v i : ℕ) (m : ℚ) (st : SysState), depth < fuel →
      setup_fuel M vcm vw lw fuel v i m depth st
        = some (setup_fairing M vcm vw lw v i m depth st) := by
  intro depth
  induction depth with
  | zero =>
    intro fuel v i m st hf
    obtain ⟨A, b⟩ := st
    obtain ⟨f, rfl⟩ : ∃ f, fuel = f + 1 :=
      ⟨fuel - 1, by omega⟩
    unfold setup_fuel setup_fairing
    cases hv : vcm v with
    | some j => simp [hv]
    | none =>
      by_cases hi : i < b.length
      · simp [hv, hi]
      · simp [hv, hi]
  | succ d ih =>
    intro fuel v i m st hf
    obtain ⟨f, rfl⟩ : ∃ f, fuel = f + 1 := ⟨fuel - 1, by omega⟩
    have hdf : d < f := by omega
    rw [setup_fairing_succ, setup_fuel_succ]
    rw [foldlM_option_except
      (fun st l => setup_fairing M vcm vw lw l.2 i (vw v * lw l.1 * m) d st) _
      (fun e l => rfl) (M.loops v) st
      (fun s l _ => ih f l.2 i (vw v * lw l.1 * m) s hdf)]
    cases hfold : (M.loops v).foldlM
        (fun st l => setup_fairing M vcm vw lw l.2 i (vw v * lw l.1 * m) d st) st with
    | error e => simp only [hfold]
    | ok st1 => simp only [hfold]; exact ih f v i _ st1 hdf

/-- Witness for C10 at concrete data: fuel 3 suffices for depth 2. -/
theorem setup_fairing_fuel_bound_witness :
    setup_fuel meshOneRow (col_of (vert_col_map meshOneRow [0])) (fun _ => 1)
        (fun _ => 1) 3 0 0 1 2 ([], [vzero])
      = some (setup_fairing meshOneRow (col_of (vert_col_map meshOneRow [0]))
        (fun _ => 1) (fun _ => 1) 0 0 1 2 ([], [vzero])) :=
  setup_fairing_fuel_bound meshOneRow (col_of (vert_col_map meshOneRow [0]))
    (fun _ => 1) (fun _ => 1) 2 3 0 0 1 ([], [vzero]) (by decide)

theorem keysA_subA : ∀ (A : SparseA) (k : ℕ × ℕ) (m : ℚ),
    ∀ q ∈ keysA (subA A k m), q ∈ keysA A ∨ q = k := by
  intro A
  induction A with
  | nil => intro k m q hq; right; simpa [subA, keysA] using hq
  | cons p rest ih =>
    intro k m q hq
    obtain ⟨kk, val⟩ := p
    by_cases hk : kk = k
    · subst hk
      left
      simp only [subA, if_pos rfl, keysA, List.map_cons] at hq ⊢
      exact hq
    · simp only [subA, if_neg hk, keysA, List.map_cons, List.mem_cons] at hq
      rcases hq with hq | hq
      · subst hq
        left
        simp [keysA]
      · rcases ih k m q (by simpa [keysA] using hq) with h | h
        · left
          simp only [keysA, List.map_cons, List.mem_cons]
          right
          simpa [keysA] using h
        · right; exact h

theorem setup_fairing_keys (M : Mesh) (vcm : ℕ → Option ℕ) (vw lw : ℕ → ℚ) :
    ∀ (depth v i : ℕ) (m : ℚ) (st st' : SysState),
      setup_fairing M vcm vw lw v i m depth st = .ok st' →
      ∀ k ∈ keysA st'.1, k ∈ keysA st.1 ∨ (k.1 = i ∧ ∃ u j, vcm u = some j ∧ k.2 = j) := by
  intro depth
  induction depth with
  | zero =>
    intro v i m st st' h k hk
    obtain ⟨A, b⟩ := st
    unfold setup_fairing at h
    cases hv : vcm v with
    | some j =>
      rw [hv] at h
      cases h
      rcases keysA_subA A (i, j) m k hk with hmem | hkij
      · exact Or.inl hmem
      · subst hkij
        exact Or.inr ⟨rfl, v, j, hv, rfl⟩
    | none =>
      rw [hv] at h
      by_cases hi : i < b.length
      · rw [dif_pos hi] at h; cases h; exact Or.inl hk
      · rw [dif_neg hi] at h; exact Except.noConfusion h
  | succ d ih =>
    intro v i m st st' h k hk
    rw [setup_fairing_succ] at h
    cases hf : (M.loops v).foldlM
        (fun st l => setup_fairing M vcm vw lw l.2 i (vw v * lw l.1 * m) d st) st with
    | error e => simp only [hf] at h; exact Except.noConfusion h
    | ok st1 =>
      simp only [hf] at h
      rcases ih v i _ st1 st' h k hk with hk1 | hgood
      · have hinv := foldlM_except_inv
          (fun st l => setup_fairing M vcm vw lw l.2 i (vw v * lw l.1 * m) d st)
          (fun s => ∀ q ∈ keysA s.1,
            q ∈ keysA st.1 ∨ (q.1 = i ∧ ∃ u j, vcm u = some j ∧ q.2 = j))
          (M.loops v) st st1 hf
          (fun s a _ s' hs' hP q hq => by
            rcases ih a.2 i _ s s' hs' q hq with hq1 | hg
            · exact hP q hq1
            · exact Or.inr hg)
          (fun q hq => Or.inl hq)
        exact hinv k hk1
      · exact Or.inr hgood

theorem col_of_mem (vcm : List (ℕ × ℕ)) (u c : ℕ) (h : col_of vcm u = some c) :
    (u, c) ∈ vcm := by
  unfold col_of at h
  cases hf : vcm.find? (fun p => p.1 == u) with
  | none => rw [hf] at h; exact Option.noConfusion h
  | some p =>
    rw [hf] at h
    have hp2 : p.2 = c := by simpa using h
    have hmem := List.mem_of_find?_eq_some hf
    have hkey : p.1 = u := by simpa using List.find?_some hf
    obtain ⟨p1, p2⟩ := p
    simp only at hp2 hkey
    subst hp2
    subst hkey
    exact hmem

theorem setup_phase_fold_error (M : Mesh) (vcm : List (ℕ × ℕ)) (vw lw : ℕ → ℚ)
    (order : ℕ) (cancel : ℕ → Bool) (hasStatus : Bool) :
    ∀ (entries : List (ℕ × (ℕ × ℕ))) (acc : Except Unit SysState × List String) (u : Unit),
      acc.1 = .error u →
      (entries.foldl (setup_step M vcm vw lw order cancel hasStatus) acc).1 = .error u := by
  intro entries
  induction entries with
  | nil => intro acc u h; exact h
  | cons e es ih =>
    intro acc u h
    simp only [List.foldl_cons]
    apply ih
    obtain ⟨x, log⟩ := acc
    simp only at h
    subst h
    rfl

theorem setup_phase_fold_keys (M : Mesh) (vcm : List (ℕ × ℕ)) (vw lw : ℕ → ℚ)
    (order : ℕ) (cancel : ℕ → Bool) (hasStatus : Bool) (n : ℕ)
    (hcol : ∀ u c, col_of vcm u = some c → c < n) :
    ∀ (entries : List (ℕ × (ℕ × ℕ))) (acc : Except Unit SysState × List String)
      (st : SysState), acc.1 = .ok st →
      (∀ e ∈ entries, e.2.2 < n) →
      (∀ k ∈ keysA st.1, k.1 < n ∧ k.2 < n) →
      ∀ A b, (entries.foldl (setup_step M vcm vw lw order cancel hasStatus) acc).1
          = .ok (A, b) →
      ∀ k ∈ keysA A, k.1 < n ∧ k.2 < n := by
  intro entries
  induction entries with
  | nil =>
    intro acc st hacc _ hQ A b hAb k hk
    simp only [List.foldl_nil] at hAb
    rw [hacc] at hAb
    cases hAb
    exact hQ k hk
  | cons e es ih =>
    intro acc st hacc hbound hQ A b hAb k hk
    simp only [List.foldl_cons] at hAb
    by_cases hc : cancel e.1 = true
    · have hstep : (setup_step M vcm vw lw order cancel hasStatus acc e).1 = .ok st := by
        obtain ⟨x, log⟩ := acc
        simp only at hacc
        subst hacc
        simp [setup_step, hc]
      exact ih _ st hstep (fun e' he' => hbound e' (List.mem_cons_of_mem e he')) hQ
        A b hAb k hk
    · cases hsf : setup_fairing M (col_of vcm) vw lw e.2.1 e.2.2 1 order st with
      | error u =>
        have hstep : (setup_step M vcm vw lw order cancel hasStatus acc e).1 = .error u := by
          obtain ⟨x, log⟩ := acc
          simp only at hacc
          subst hacc
          simp [setup_step, hc, hsf]
        rw [setup_phase_fold_error M vcm vw lw order cancel hasStatus es _ u hstep] at hAb
        exact Except.noConfusion hAb
      | ok st1 =>
        have hstep : (setup_step M vcm vw lw order cancel hasStatus acc e).1 = .ok st1 := by
          obtain ⟨x, log⟩ := acc
          simp only at hacc
          subst hacc
          simp [setup_step, hc, hsf]
        have hQ1 : ∀ k ∈ keysA st1.1, k.1 < n ∧ k.2 < n := by
          intro q hq
          rcases setup_fairing_keys M (col_of vcm) vw lw order e.2.1 e.2.2 1 st st1
              hsf q hq with hmem | ⟨hrow, u, j, hcolu, hqj⟩
          · exact hQ q hmem
          · refine ⟨hrow ▸ hbound e (List.mem_cons_self e es), ?_⟩
            rw [hqj]
            exact hcol u j hcolu
        exact ih _ st1 hstep (fun e' he' => hbound e' (List.mem_cons_of_mem e he')) hQ1
          A b hAb k hk

/--
C8: for a duplicate-free affected list, the Column Map is a bijection
from the interior vertices onto the dense index set 0..n-1 (its key list
is exactly the interior-vertex list and its value list is exactly
range n), and after assembly every (row, column) key stored in the
coefficient matrix A lies in the square 0..n-1 times 0..n-1.
-/
theorem column_map_bijection_and_key_bounds (M : Mesh) (verts : List ℕ)
    (order : ℕ) (vw lw : ℕ → ℚ) (cancel : ℕ → Bool) (hasStatus : Bool)
    (hnd : verts.Nodup) :
    ((vert_col_map M verts).map Prod.fst = interior_verts M verts ∧
     (vert_col_map M verts).map Prod.snd = List.range (vert_col_map M verts).length) ∧
    (∀ A b, (setup_phase M verts order vw lw cancel hasStatus).1 = .ok (A, b) →
      ∀ k ∈ keysA A, k.1 < (vert_col_map M verts).length ∧
        k.2 < (vert_col_map M verts).length) := by
  have hshape := vert_col_map_of_nodup M verts hnd
  have hlen : (vert_col_map M verts).length = (interior_verts M verts).length := by
    rw [hshape, List.length_map, List.enum_length]
  constructor
  · constructor
    · rw [hshape, List.map_map]
      have : (Prod.fst ∘ fun cv : ℕ × ℕ => (cv.2, cv.1)) = Prod.snd := rfl
      rw [this, List.enum_map_snd]
    · rw [hshape, List.map_map]
      have : (Prod.snd ∘ fun cv : ℕ × ℕ => (cv.2, cv.1)) = Prod.fst := rfl
      rw [this, List.enum_map_fst]
      simp [List.enum_length]
  · intro A b hAb k hk
    have hcol : ∀ u c, col_of (vert_col_map M verts) u = some c →
        c < (vert_col_map M verts).length := by
      intro u c hc
      exact vert_col_map_mem_lt M verts hnd (u, c) (col_of_mem _ u c hc)
    apply setup_phase_fold_keys M (vert_col_map M verts) vw lw order cancel hasStatus
      (vert_col_map M verts).length hcol (vert_col_map M verts).enum
      (.ok ([], List.replicate (vert_col_map M verts).length vzero), [])
      ([], List.replicate (vert_col_map M verts).length vzero) rfl
      (fun e he => by
        apply vert_col_map_mem_lt M verts hnd
        have he2 : e.2 ∈ (vert_col_map M verts).enum.map Prod.snd :=
          List.mem_map_of_mem Prod.snd he
        rwa [List.enum_map_snd] at he2)
      (fun q hq => by simp [keysA] at hq) A b ?_ k hk
    exact hAb

/-- Witness for C8 at a concrete duplicate-free input. -/
theorem column_map_bijection_and_key_bounds_witness :
    ((vert_col_map meshOneRow [0]).map Prod.fst = interior_verts meshOneRow [0] ∧
     (vert_col_map meshOneRow [0]).map Prod.snd
       = List.range (vert_col_map meshOneRow [0]).length) ∧
    (∀ A b, (setup_phase meshOneRow [0] 1 (fun _ => 1) (fun _ => 1) (fun _ => false)
        true).1 = .ok (A, b) →
      ∀ k ∈ keysA A, k.1 < (vert_col_map meshOneRow [0]).length ∧
        k.2 < (vert_col_map meshOneRow [0]).length) :=
  column_map_bijection_and_key_bounds meshOneRow [0] 1 (fun _ => 1) (fun _ => 1)
    (fun _ => false) true (by decide)

theorem keysA_subA_self : ∀ (A : SparseA) (k : ℕ × ℕ) (m : ℚ),
    k ∈ keysA (subA A k m) := by
  intro A
  induction A with
  | nil => intro k m; simp [subA, keysA]
  | cons p rest ih =>
    intro k m
    obtain ⟨kk, val⟩ := p
    by_cases hk : kk = k
    · subst hk; simp [subA, keysA]
    · simp only [subA, if_neg hk, keysA, List.map_cons, List.mem_cons]
      right
      simpa [keysA] using ih k m

theorem keysA_subA_mono : ∀ (A : SparseA) (k : ℕ × ℕ) (m : ℚ) (q : ℕ × ℕ),
    q ∈ keysA A → q ∈ keysA (subA A k m) := by
  intro A
  induction A with
  | nil => intro k m q hq; simp [keysA] at hq
  | cons p rest ih =>
    intro k m q hq
    obtain ⟨kk, val⟩ := p
    by_cases hk : kk = k
    · subst hk
      simpa [subA, keysA] using hq
    · simp only [keysA, List.map_cons, List.mem_cons] at hq
      simp only [subA, if_neg hk, keysA, List.map_cons, List.mem_cons]
      rcases hq with hq | hq
      · exact Or.inl hq
      · right; simpa [keysA] using ih k m q (by simpa [keysA] using hq)

theorem setup_fairing_keys_mono (M : Mesh) (vcm : ℕ → Option ℕ) (vw lw : ℕ → ℚ) :
    ∀ (depth v i : ℕ) (m : ℚ) (st st' : SysState),
      setup_fairing M vcm vw lw v i m depth st = .ok st' →
      ∀ q ∈ keysA st.1, q ∈ keysA st'.1 := by
  intro depth
  induction depth with
  | zero =>
    intro v i m st st' h q hq
    obtain ⟨A, b⟩ := st
    unfold setup_fairing at h
    cases hv : vcm v with
    | some j =>
      rw [hv] at h
      cases h
      exact keysA_subA_mono A (i, j) m q hq
    | none =>
      rw [hv] at h
      by_cases hi : i < b.length
      · rw [dif_pos hi] at h; cases h; exact hq
      · rw [dif_neg hi] at h; exact Except.noConfusion h
  | succ d ih =>
    intro v i m st st' h q hq
    rw [setup_fairing_succ] at h
    cases hf : (M.loops v).foldlM
        (fun st l => setup_fairing M vcm vw lw l.2 i (vw v * lw l.1 * m) d st) st with
    | error e => simp only [hf] at h; exact Except.noConfusion h
    | ok st1 =>
      simp only [hf] at h
      have h1 : ∀ q ∈ keysA st.1, q ∈ keysA st1.1 :=
        foldlM_except_inv _ (fun s => ∀ q ∈ keysA st.1, q ∈ keysA s.1)
          (M.loops v) st st1 hf
          (fun s a _ s' hs' hP r hr => ih a.2 i _ s s' hs' r (hP r hr))
          (fun r hr => hr)
      exact ih v i _ st1 st' h q (h1 q hq)

theorem setup_fairing_row_presence (M : Mesh) (vcm : ℕ → Option ℕ) (vw lw : ℕ → ℚ) :
    ∀ (depth v i : ℕ) (m : ℚ) (st st' : SysState),
      setup_fairing M vcm vw lw v i m depth st = .ok st' →
      (∃ j, (i, j) ∈ keysA st'.1) ∨ i < st'.2.length := by
  intro depth
  induction depth with
  | zero =>
    intro v i m st st' h
    obtain ⟨A, b⟩ := st
    unfold setup_fairing at h
    cases hv : vcm v with
    | some j =>
      rw [hv] at h
      cases h
      exact Or.inl ⟨j, keysA_subA_self A (i, j) m⟩
    | none =>
      rw [hv] at h
      by_cases hi : i < b.length
      · rw [dif_pos hi] at h; cases h; right; simpa using hi
      · rw [dif_neg hi] at h; exact Except.noConfusion h
  | succ d ih =>
    intro v i m st st' h
    rw [setup_fairing_succ] at h
    cases hf : (M.loops v).foldlM
        (fun st l => setup_fairing M vcm vw lw l.2 i (vw v * lw l.1 * m) d st) st with
    | error e => simp only [hf] at h; exact Except.noConfusion h
    | ok st1 =>
      simp only [hf] at h
      exact ih v i _ st1 st' h

theorem setup_phase_fold_rows (M : Mesh) (vcm : List (ℕ × ℕ)) (vw lw : ℕ → ℚ)
    (order : ℕ) (cancel : ℕ → Bool) (hasStatus : Bool) :
    ∀ (entries : List (ℕ × (ℕ × ℕ))) (acc : Except Unit SysState × List String)
      (st : SysState), acc.1 = .ok st →
      (∀ e ∈ entries, cancel e.1 = false) →
      ∀ A b, (entries.foldl (setup_step M vcm vw lw order cancel hasStatus) acc).1
          = .ok (A, b) →
      (∀ q ∈ keysA st.1, q ∈ keysA A) ∧ b.length = st.2.length ∧
      (∀ e ∈ entries, (∃ j, (e.2.2, j) ∈ keysA A) ∨ e.2.2 < b.length) := by
  intro entries
  induction entries with
  | nil =>
    intro acc st hacc _ A b hAb
    simp only [List.foldl_nil] at hAb
    rw [hacc] at hAb
    cases hAb
    exact ⟨fun q hq => hq, rfl, fun e he => absurd he (List.not_mem_nil e)⟩
  | cons e es ih =>
    intro acc st hacc hcanc A b hAb
    simp only [List.foldl_cons] at hAb
    have hc : cancel e.1 = false := hcanc e (List.mem_cons_self e es)
    cases hsf : setup_fairing M (col_of vcm) vw lw e.2.1 e.2.2 1 order st with
    | error u =>
      have hstep : (setup_step M vcm vw lw order cancel hasStatus acc e).1 = .error u := by
        obtain ⟨xx, log⟩ := acc
        simp only at hacc
        subst hacc
        simp [setup_step, hc, hsf]
      rw [setup_phase_fold_error M vcm vw lw order cancel hasStatus es _ u hstep] at hAb
      exact Except.noConfusion hAb
    | ok st1 =>
      have hstep : (setup_step M vcm vw lw order cancel hasStatus acc e).1 = .ok st1 := by
        obtain ⟨xx, log⟩ := acc
        simp only at hacc
        subst hacc
        simp [setup_step, hc, hsf]
      obtain ⟨hmono1, hlen1, hrows1⟩ := ih _ st1 hstep
        (fun e' he' => hcanc e' (List.mem_cons_of_mem e he')) A b hAb
      have hlen0 := setup_fairing_length M (col_of vcm) vw lw order _ _ _ _ _ hsf
      refine ⟨?_, by rw [hlen1, hlen0], ?_⟩
      · intro q hq
        exact hmono1 q
          (setup_fairing_keys_mono M (col_of vcm) vw lw order _ _ _ _ _ hsf q hq)
      · intro e' he'
        rcases List.mem_cons.1 he' with rfl | he'
        · rcases setup_fairing_row_presence M (col_of vcm) vw lw order _ _ _ _ _ hsf
            with ⟨j, hj⟩ | hlt
          · exact Or.inl ⟨j, hmono1 _ hj⟩
          · exact Or.inr (by rw [hlen1]; exact hlen0 ▸ hlt)
        · exact hrows1 e' he'

theorem dict_insert_keys_nodup (d : List (ℕ × ℕ)) (k c : ℕ)
    (h : (d.map Prod.fst).Nodup) : ((dict_insert d k c).map Prod.fst).Nodup := by
  unfold dict_insert
  by_cases hmem : d.any (fun p => p.1 == k) = true
  · rw [if_pos hmem, List.map_map]
    have : ∀ p ∈ d, (Prod.fst ∘ fun p : ℕ × ℕ => if p.1 == k then (k, c) else p) p
        = Prod.fst p := by
      intro p _
      by_cases hp : p.1 = k
      · simp [Function.comp, hp]
      · simp [Function.comp, hp]
    rw [List.map_congr_left this]
    exact h
  · rw [if_neg hmem, List.map_append]
    rw [List.nodup_append]
    refine ⟨h, by simp, ?_⟩
    intro a ha hb
    have hb2 : a = k := by simpa using hb
    subst hb2
    simp only [List.any_eq_true] at hmem
    obtain ⟨p, hp, hpk⟩ := List.mem_map.1 ha
    exact hmem ⟨p, hp, by simpa using hpk⟩

theorem foldl_dict_insert_keys_nodup :
    ∀ (pairs : List (ℕ × ℕ)) (d : List (ℕ × ℕ)), (d.map Prod.fst).Nodup →
      (((pairs.foldl (fun d cv => dict_insert d cv.2 cv.1) d)).map Prod.fst).Nodup := by
  intro pairs
  induction pairs with
  | nil => intro d h; exact h
  | cons p ps ih =>
    intro d h
    simp only [List.foldl_cons]
    exact ih _ (dict_insert_keys_nodup d p.2 p.1 h)

/-- The Column Map's key list never contains a vertex twice (Python dict
keys are unique), for every input list, duplicates or not. -/
theorem vert_col_map_keys_nodup (M : Mesh) (verts : List ℕ) :
    ((vert_col_map M verts).map Prod.fst).Nodup := by
  unfold vert_col_map
  exact foldl_dict_insert_keys_nodup _ [] (by simp)

theorem apply_loop_success (x : List Vec3) :
    ∀ (entries : List (ℕ × ℕ)) (co : ℕ → Vec3) (log : List String),
      (∀ p ∈ entries, p.2 < x.length) → ((entries.map Prod.fst)).Nodup →
      (apply_loop x entries co log).ret = .ok true ∧
      (∀ p ∈ entries, ∃ q, x[p.2]? = some q ∧ (apply_loop x entries co log).co p.1 = q) ∧
      (∀ w, (∀ c, (w, c) ∉ entries) → (apply_loop x entries co log).co w = co w) := by
  intro entries
  induction entries with
  | nil =>
    intro co log _ _
    exact ⟨rfl, fun p hp => absurd hp (List.not_mem_nil p), fun w _ => rfl⟩
  | cons p rest ih =>
    intro co log hlt hnd
    obtain ⟨v, c⟩ := p
    have hc : c < x.length := hlt (v, c) (List.mem_cons_self _ rest)
    have hx : x[c]? = some (x.get ⟨c, hc⟩) := by
      rw [List.getElem?_eq_getElem hc]
      rfl
    have hnd1 : v ∉ rest.map Prod.fst := by
      simp only [List.map_cons, List.nodup_cons] at hnd
      exact hnd.1
    have hndr : (rest.map Prod.fst).Nodup := by
      simp only [List.map_cons, List.nodup_cons] at hnd
      exact hnd.2
    have hstep : apply_loop x ((v, c) :: rest) co log
        = apply_loop x rest (Function.update co v (x.get ⟨c, hc⟩)) log := by
      show (match x[c]? with
        | some q => apply_loop x rest (Function.update co v q) log
        | none => ⟨.error (), co, log⟩) = _
      rw [hx]
    obtain ⟨hret, hmem, hrest⟩ := ih (Function.update co v (x.get ⟨c, hc⟩)) log
      (fun p hp => hlt p (List.mem_cons_of_mem _ hp)) hndr
    rw [hstep]
    refine ⟨hret, ?_, ?_⟩
    · intro p hp
      rcases List.mem_cons.1 hp with rfl | hp
      · refine ⟨x.get ⟨c, hc⟩, hx, ?_⟩
        rw [hrest v (fun c' hcontra => hnd1 (List.mem_map_of_mem Prod.fst hcontra))]
        simp [Function.update]
      · exact hmem p hp
    · intro w hw
      rw [hrest w (fun c' hcontra => hw c' (List.mem_cons_of_mem _ hcontra))]
      have hwv : w ≠ v := by
        intro hwv
        subst hwv
        exact hw c (List.mem_cons_self _ rest)
      simp [Function.update, hwv]

/--
C1: the all-or-nothing guarantee of `fair` (geometry.py lines 238-265).
Under the monotone cancellation flag and a solver satisfying the Sparse
Solver Port contract (a returned solution has one row per row of `b`,
and a solution is only returned for a system whose stored keys are in
range — as the NumPy/SciPy/null backends do, since out-of-range
assignments raise inside the backend and are caught, yielding None):
if the call does not return `true` (cancellation, solver failure, or a
propagated exception), every vertex position is exactly unchanged; and
if it returns `true`, the solver was run on the assembled system and
every vertex of the Column Map was updated to its row of the solver
result, with every other vertex untouched.
-/
theorem fair_all_or_nothing (M : Mesh) (verts : List ℕ) (order : ℕ)
    (vw lw : ℕ → ℚ) (cancel : ℕ → Bool) (sol : Solver) (hasStatus : Bool)
    (hmono : ∀ s t, s ≤ t → cancel s = true → cancel t = true)
    (hsol : ∀ A b x, sol A b = some x → x.length = b.length ∧
      ∀ k ∈ keysA A, k.1 < b.length ∧ k.2 < b.length) :
    ((fair M verts order vw lw cancel sol hasStatus).ret ≠ .ok true →
      ∀ w, (fair M verts order vw lw cancel sol hasStatus).co w = M.co w) ∧
    ((fair M verts order vw lw cancel sol hasStatus).ret = .ok true →
      ∃ A b x, (setup_phase M verts order vw lw cancel hasStatus).1 = .ok (A, b) ∧
        sol A b = some x ∧
        (∀ p ∈ vert_col_map M verts, ∃ q, x[p.2]? = some q ∧
          (fair M verts order vw lw cancel sol hasStatus).co p.1 = q) ∧
        (∀ w, (∀ c, (w, c) ∉ vert_col_map M verts) →
          (fair M verts order vw lw cancel sol hasStatus).co w = M.co w)) := by
  unfold fair
  rcases hsp : setup_phase M verts order vw lw cancel hasStatus with ⟨xE, log⟩
  cases xE with
  | error u => exact ⟨fun _ w => rfl, fun h => absurd h (by simp)⟩
  | ok st =>
    obtain ⟨A, b⟩ := st
    by_cases hn : cancel (vert_col_map M verts).length = true
    · have hn1 : cancel ((vert_col_map M verts).length + 1) = true :=
        hmono _ _ (Nat.le_succ _) hn
      refine ⟨fun _ w => ?_, fun h => ?_⟩
      · simp [hn, hn1]
      · simp [hn, hn1] at h
    · by_cases hn1 : cancel ((vert_col_map M verts).length + 1) = true
      · refine ⟨fun _ w => ?_, fun h => ?_⟩
        · simp [hn, hn1]
        · simp [hn, hn1] at h
      · cases hx : sol A b with
        | none =>
          refine ⟨fun _ w => ?_, fun h => ?_⟩
          · simp [hn, hn1, hx]
          · simp [hn, hn1, hx] at h
        | some x =>
          -- The setup loop ran uncancelled for every entry; the solver
          -- contract then bounds every stored column, so the apply loop
          -- writes every Column Map entry and the call returns true.
          obtain ⟨hxlen, hkeys⟩ := hsol A b x hx
          have hfold : (((vert_col_map M verts).enum).foldl
              (setup_step M (vert_col_map M verts) vw lw order cancel hasStatus)
              (.ok ([], List.replicate (vert_col_map M verts).length vzero), [])).1
              = .ok (A, b) := by
            have hc := congrArg Prod.fst hsp
            simpa [setup_phase] using hc
          have hentries_canc : ∀ e ∈ (vert_col_map M verts).enum, cancel e.1 = false := by
            intro e he
            have h1 : e.1 < (vert_col_map M verts).length := by
              have h2 := List.mem_map_of_mem Prod.fst he
              rw [List.enum_map_fst] at h2
              exact List.mem_range.1 h2
            by_contra hcon
            exact hn (hmono e.1 _ (le_of_lt h1)
              (by revert hcon; cases cancel e.1 <;> simp))
          obtain ⟨hksub, hblen2, hrows⟩ := setup_phase_fold_rows M (vert_col_map M verts)
            vw lw order cancel hasStatus (vert_col_map M verts).enum
            (.ok ([], List.replicate (vert_col_map M verts).length vzero), [])
            ([], List.replicate (vert_col_map M verts).length vzero) rfl
            hentries_canc A b hfold
          have hcols : ∀ p ∈ vert_col_map M verts, p.2 < x.length := by
            intro p hp
            obtain ⟨idx, hidx⟩ := List.getElem?_of_mem hp
            have henum : (idx, p) ∈ (vert_col_map M verts).enum :=
              List.mem_enum_iff_getElem?.2 hidx
            rw [hxlen]
            rcases hrows (idx, p) henum with ⟨j, hj⟩ | hlt
            · exact (hkeys (p.2, j) hj).1
            · exact hlt
          obtain ⟨hret0, hmem0, hrest0⟩ := apply_loop_success x (vert_col_map M verts)
            M.co [] hcols (vert_col_map_keys_nodup M verts)
          constructor
          · intro h
            exfalso
            apply h
            simp only [hn, hn1, hx]
            simp only [Bool.false_eq_true, if_false]
            rw [(apply_loop_ret_co x (vert_col_map M verts) M.co _ []).1]
            exact hret0
          · intro _
            refine ⟨A, b, x, rfl, hx, ?_, ?_⟩
            · intro p hp
              obtain ⟨q, hq, hco⟩ := hmem0 p hp
              refine ⟨q, hq, ?_⟩
              simp only [hn, hn1, hx]
              simp only [Bool.false_eq_true, if_false]
              rw [congrFun (apply_loop_ret_co x (vert_col_map M verts) M.co _ []).2 p.1]
              exact hco
            · intro w hw
              simp only [hn, hn1, hx]
              simp only [Bool.false_eq_true, if_false]
              rw [congrFun (apply_loop_ret_co x (vert_col_map M verts) M.co _ []).2 w]
              exact hrest0 w hw

/-- Witness for C1 at a concrete one-interior-vertex mesh with a
contract-honouring backend; both hypotheses discharged. -/
theorem fair_all_or_nothing_witness :
    ((fair meshOneRow [0] 1 (fun _ => 1) (fun _ => 1) (fun _ => false) checkedSolver
        true).ret ≠ .ok true →
      ∀ w, (fair meshOneRow [0] 1 (fun _ => 1) (fun _ => 1) (fun _ => false)
        checkedSolver true).co w = meshOneRow.co w) ∧
    ((fair meshOneRow [0] 1 (fun _ => 1) (fun _ => 1) (fun _ => false) checkedSolver
        true).ret = .ok true →
      ∃ A b x, (setup_phase meshOneRow [0] 1 (fun _ => 1) (fun _ => 1) (fun _ => false)
          true).1 = .ok (A, b) ∧
        checkedSolver A b = some x ∧
        (∀ p ∈ vert_col_map meshOneRow [0], ∃ q, x[p.2]? = some q ∧
          (fair meshOneRow [0] 1 (fun _ => 1) (fun _ => 1) (fun _ => false)
            checkedSolver true).co p.1 = q) ∧
        (∀ w, (∀ c, (w, c) ∉ vert_col_map meshOneRow [0]) →
          (fair meshOneRow [0] 1 (fun _ => 1) (fun _ => 1) (fun _ => false)
            checkedSolver true).co w = meshOneRow.co w)) :=
  fair_all_or_nothing meshOneRow [0] 1 (fun _ => 1) (fun _ => 1) (fun _ => false)
    checkedSolver true (fun _ _ _ h => h)
    (fun A b x h => by
      unfold checkedSolver at h
      by_cases hc : (keysA A).all
          (fun k => decide (k.1 < b.length) && decide (k.2 < b.length)) = true
      · rw [if_pos hc] at h
        cases h
        refine ⟨rfl, ?_⟩
        intro k hk
        have h2 := List.all_eq_true.1 hc k hk
        constructor
        · exact of_decide_eq_true (Bool.and_elim_left h2)
        · exact of_decide_eq_true (Bool.and_elim_right h2)
      · rw [if_neg hc] at h
        exact Option.noConfusion h)

theorem area_tri_nonneg (a b c : Vec3R) : 0 ≤ area_tri a b c :=
  div_nonneg (Real.sqrt_nonneg _) (by norm_num)

theorem vangle_nonneg (u v : Vec3R) : 0 ≤ vangle u v := Real.arccos_nonneg _

theorem vangle_le_pi (u v : Vec3R) : vangle u v ≤ Real.pi := Real.arccos_le_pi _

theorem tan_half_vangle_nonneg (u v : Vec3R) : 0 ≤ Real.tan (vangle u v / 2) :=
  Real.tan_nonneg_of_nonneg_of_le_pi_div_two
    (div_nonneg (vangle_nonneg u v) (by norm_num))
    (by linarith [vangle_le_pi u v])

/--
C7 (amended): five of the six public weight functions — uniform,
barycentric and Voronoi vertex weights, uniform and mean-value-coordinate
loop weights — return a non-negative value for every vertex or loop they
are applied to (and all six are pure functions of local geometry, with
no side effect beyond reading the mesh, as the shallow embedding makes
structural).  The sixth, the cotangent loop weight, can be negative: see
the counterexample.
-/
theorem five_weight_functions_nonneg :
    (∀ v : VertFan, 0 ≤ calc_uniform_vertex_weight v) ∧
    (∀ v : VertFan, 0 ≤ calc_barycentric_vertex_weight v) ∧
    (∀ v : VertFan, 0 ≤ calc_voronoi_vertex_weight v) ∧
    (∀ l : LoopGeom, 0 ≤ calc_uniform_loop_weight l) ∧
    (∀ l : LoopGeom, 0 ≤ calc_mvc_loop_weight l) := by
  refine ⟨?_, ?_, ?_, ?_, ?_⟩
  · intro v
    unfold calc_uniform_vertex_weight
    by_cases h : v.degree ≠ 0
    · rw [if_pos h]
      positivity
    · rw [if_neg h]
      unfold sys_maxsize
      norm_num
  · intro v
    unfold calc_barycentric_vertex_weight
    have harea : 0 ≤ (v.loops.map (fun bc => area_tri v.co bc.1 bc.2 / 3)).sum := by
      apply List.sum_nonneg
      intro x hx
      obtain ⟨bc, _, rfl⟩ := List.mem_map.1 hx
      exact div_nonneg (area_tri_nonneg _ _ _) (by norm_num)
    by_cases h : (v.loops.map (fun bc => area_tri v.co bc.1 bc.2 / 3)).sum ≠ 0
    · rw [if_pos h]
      positivity
    · rw [if_neg h]
      norm_num
  · intro v
    unfold calc_voronoi_vertex_weight
    have harea : 0 ≤ (v.loops.map (voronoi_loop_area v.co)).sum := by
      apply List.sum_nonneg
      intro x hx
      obtain ⟨bc, _, rfl⟩ := List.mem_map.1 hx
      unfold voronoi_loop_area
      exact add_nonneg (area_tri_nonneg _ _ _) (area_tri_nonneg _ _ _)
    by_cases h : (v.loops.map (voronoi_loop_area v.co)).sum ≠ 0
    · rw [if_pos h]
      positivity
    · rw [if_neg h]
      norm_num
  · intro l
    unfold calc_uniform_loop_weight
    norm_num
  · intro l
    unfold calc_mvc_loop_weight
    by_cases h : Vec3R.len (Vec3R.sub l.b l.a) > 0
    · rw [if_pos h]
      apply div_nonneg _ (le_of_lt h)
      apply add_nonneg (tan_half_vangle_nonneg _ _)
      cases l.opp with
      | some q => exact tan_half_vangle_nonneg _ _
      | none => exact le_refl 0
    · rw [if_neg h]

/--
C7 counterexample: the cotangent loop weight is negative on an ordinary
obtuse triangle — for the boundary-edge loop with `l.vert.co = (1,0,0)`,
`l.link_loop_next.vert.co = (-1,1,0)` and `l.link_loop_prev.vert.co =
(0,0,0)`, the angle opposite the edge is 3*pi/4, its cotangent is -1, and
the weight is -1/2 < 0, refuting "non-negative for every vertex or loop".
-/
theorem cotangent_weight_negative : calc_cotangent_loop_weight obtuseLoop < 0 := by
  have hss : Real.sqrt 2 * Real.sqrt 2 = 2 := Real.mul_self_sqrt (by norm_num)
  have hs2 : Real.sqrt 2 ≠ 0 := by positivity
  have hdot : Vec3R.dot ⟨1, 0, 0⟩ ⟨-1, 1, 0⟩ = -1 := by
    unfold Vec3R.dot
    norm_num
  have hlenu : Vec3R.len ⟨1, 0, 0⟩ = 1 := by
    unfold Vec3R.len Vec3R.len_sq Vec3R.dot
    norm_num
  have hlenv : Vec3R.len ⟨-1, 1, 0⟩ = Real.sqrt 2 := by
    unfold Vec3R.len Vec3R.len_sq Vec3R.dot
    norm_num
  have hratio : (-1 : ℝ) / (1 * Real.sqrt 2) = -(Real.sqrt 2 / 2) := by
    rw [one_mul, div_eq_iff hs2]
    have hr : -(Real.sqrt 2 / 2) * Real.sqrt 2 = -(Real.sqrt 2 * Real.sqrt 2) / 2 := by
      ring
    rw [hr, hss]
    norm_num
  have hangle : vangle ⟨1, 0, 0⟩ ⟨-1, 1, 0⟩ = 3 * Real.pi / 4 := by
    unfold vangle
    rw [hdot, hlenu, hlenv, hratio, Real.arccos_neg]
    rw [show Real.sqrt 2 / 2 = Real.cos (Real.pi / 4) from Real.cos_pi_div_four.symm]
    rw [Real.arccos_cos (by positivity) (by linarith [Real.pi_pos])]
    ring
  have htan : Real.tan (3 * Real.pi / 4) = -1 := by
    rw [show 3 * Real.pi / 4 = Real.pi - Real.pi / 4 by ring, Real.tan_pi_sub,
      Real.tan_pi_div_four]
  have hsub1 : Vec3R.sub ⟨1, 0, 0⟩ ⟨0, 0, 0⟩ = ⟨1, 0, 0⟩ := by
    unfold Vec3R.sub
    norm_num
  have hsub2 : Vec3R.sub ⟨-1, 1, 0⟩ ⟨0, 0, 0⟩ = ⟨-1, 1, 0⟩ := by
    unfold Vec3R.sub
    norm_num
  have hcond : ¬((⟨1, 0, 0⟩ : Vec3R) = Vec3R.zero ∨ (⟨-1, 1, 0⟩ : Vec3R) = Vec3R.zero) := by
    unfold Vec3R.zero
    rintro (h | h) <;> simpa using congrArg Vec3R.x h
  have hc : cot_contrib ⟨1, 0, 0⟩ ⟨-1, 1, 0⟩ ⟨0, 0, 0⟩ = -1 := by
    unfold cot_contrib
    rw [hsub1, hsub2, hangle, htan, if_neg hcond, if_neg (by norm_num : ¬(-1 : ℝ) = 0)]
    norm_num
  unfold calc_cotangent_loop_weight
  simp only [obtuseLoop, List.append_nil, List.map_cons, List.map_nil, List.sum_cons,
    List.sum_nil, hc]
  norm_num

end MeshFairing
